import Mathlib

/-!
# gcon: promises over goroutines

A shallow embedding of `gcon.go`.  Every goroutine of the package is a small
program counter machine whose steps are the statements of the Go source; a
system state holds the shared variables, the channels and the program counters,
and a schedule is the list of labels naming which goroutine (or which ready
`select` case, or which event of the environment) moves next.  A label that is
not enabled in a state (a receive on an open channel, a finished goroutine) has
no successor.

Conventions:
* a channel of `struct{}` that is only ever closed is a `Bool` (closed or not);
* a buffered channel is the list of queued values together with its capacity;
* the Go interface `error` is `Option ErrVal`, `nil` being `none`;
* a `Func` is a total function: the computations are those that terminate, and
  each system keeps a log of the invocations made.
-/

namespace Gcon

/-! ## Errors, contexts and computations -/

/-- Non-nil error values.  `ErrIncomplete` is the package's own sentinel,
`Canceled` and `DeadlineExceeded` are the two errors of package `context`, and
`other n` stands for any error created by a caller. -/
inductive ErrVal where
  | ErrIncomplete
  | Canceled
  | DeadlineExceeded
  | other (n : Nat)
  deriving DecidableEq, Repr

/-- The Go interface type `error`; `none` is `nil`. -/
abbrev error := Option ErrVal

/-- The package variable `ErrIncomplete = errors.New("incomplete")`. -/
def ErrIncomplete : error := some ErrVal.ErrIncomplete

/-- A `context.Context` (standard library, outside the package): an identity
`key` and the error `cause` that `Err()` reports once the done-signal has
fired.  Whether the signal has fired is part of the system state. -/
structure Context where
  key : Nat
  cause : ErrVal
  deriving DecidableEq, Repr

/-- The method `ctx.Err()`: `nil` until the done-signal fires, afterwards the
context's own error. -/
def Context.Err (ctx : Context) (fired : Bool) : error :=
  if fired then some ctx.cause else none

/-- The type `Func[T, V]`: `func(context.Context, T) (V, error)`. -/
abbrev Func (T V : Type) := Context → T → V × error

/-! ## Promise -/

/-- The struct `Promise[V]`; `done` records whether the channel is closed. -/
structure Promise (V : Type) where
  val : V
  err : error
  done : Bool
  deriving DecidableEq, Repr

/-- The method `Get`: `<-p.done` blocks (`none`) while the channel is open,
then the stored pair is returned. -/
def Promise.Get {V : Type} (p : Promise V) : Option (V × error) :=
  if p.done then some (p.val, p.err) else none

/-- The method `GetNow`: the `select` with a `default` case never blocks. -/
def Promise.GetNow {V : Type} [Inhabited V] (p : Promise V) : V × error :=
  if p.done then (p.val, p.err) else (default, ErrIncomplete)

/-- The method `Wait` of a promise: like `Get`, but only the error. -/
def Promise.Wait {V : Type} (p : Promise V) : Option error :=
  if p.done then some p.err else none

/-- The struct literal `Promise[V]{done: done}` over a fresh channel. -/
def Promise.fresh {V : Type} [Inhabited V] : Promise V :=
  { val := default, err := none, done := false }

/-! ## Schedules -/

/-- Run a schedule: every label must be enabled when its turn comes. -/
def exec {S L : Type} (step : S → L → Option S) : S → List L → Option S
  | s, [] => some s
  | s, l :: ls =>
    match step s l with
    | none => none
    | some s1 => exec step s1 ls

/-! ## Run -/

/-- Program counter of the goroutine started by `Run`. -/
inductive RunPc where
  | call
  | closing
  | exited
  deriving DecidableEq, Repr

/-- The only label of the `Run` system: its goroutine moves. -/
inductive RunLabel where
  | go
  deriving DecidableEq, Repr

/-- State of `Run`: the promise, the goroutine and the invocations of `f`. -/
structure RunState (T V : Type) where
  p : Promise V
  pc : RunPc
  calls : List (Context × T)
  deriving DecidableEq, Repr

/-- The function `Run`: the promise is returned at once, its goroutine has not
moved yet. -/
def Run {T V : Type} [Inhabited V] (_ctx : Context) (_t : T) (_f : Func T V) :
    RunState T V :=
  { p := Promise.fresh, pc := RunPc.call, calls := [] }

/-- One statement of the goroutine of `Run`:
`p.val, p.err = f(ctx, t)`, then the deferred `close(done)`. -/
def Run.step {T V : Type} (ctx : Context) (t : T) (f : Func T V)
    (s : RunState T V) : RunLabel → Option (RunState T V)
  | RunLabel.go =>
    match s.pc with
    | RunPc.call =>
      some { p := { val := (f ctx t).1, err := (f ctx t).2, done := s.p.done },
             pc := RunPc.closing, calls := s.calls ++ [(ctx, t)] }
    | RunPc.closing =>
      some { p := { val := s.p.val, err := s.p.err, done := true },
             pc := RunPc.exited, calls := s.calls }
    | RunPc.exited => none

/-- Statements the goroutine of `Run` has still to execute. -/
def RunPc.rank : RunPc → Nat
  | RunPc.call => 2
  | RunPc.closing => 1
  | RunPc.exited => 0

/-! ## Then -/

/-- Program counter of the goroutine started by `Then`, with the local
variables that are live at each statement. -/
inductive ThenPc (T V : Type) where
  | get
  | test (val : T) (err : error)
  | propagate (err : error)
  | call (val : T)
  | storeVal (val2 : V) (err : error)
  | storeErr (err : error)
  | closing
  | exited
  deriving DecidableEq, Repr

/-- Labels of the `Then` system: the writer of the source promise moves, or
the goroutine of `Then` moves. -/
inductive ThenLabel where
  | source
  | chain
  deriving DecidableEq, Repr

/-- State of `Then`: the source promise `src` with its writer, the returned
promise `out` with its goroutine, and the invocations of `f`. -/
structure ThenState (T V : Type) where
  src : Promise T
  srcPc : RunPc
  out : Promise V
  pc : ThenPc T V
  calls : List (Context × T)
  deriving DecidableEq, Repr

/-- The function `Then`: `out` is returned at once.  The source promise is
pending and its writer has not moved; a schedule that lets the writer move
first is the call on a source that is already complete. -/
def Then {T V : Type} [Inhabited T] [Inhabited V] (_ctx : Context) (_f : Func T V) :
    ThenState T V :=
  { src := Promise.fresh, srcPc := RunPc.call, out := Promise.fresh,
    pc := ThenPc.get, calls := [] }

/-- One step of the `Then` system.  The writer of the source stores the pair
`(sv, se)` and closes the source's channel, as the goroutines of `Run` and
`Then` do.  The goroutine of `Then` executes, one statement per step,
`val, err := p.Get()`, `if err != nil`, `out.err = err; return`,
`val2, err := f(ctx, val)`, `out.val = val2`, `out.err = err` and the deferred
`close(done)`. -/
def Then.step {T V : Type} (ctx : Context) (sv : T) (se : error) (f : Func T V)
    (s : ThenState T V) : ThenLabel → Option (ThenState T V)
  | ThenLabel.source =>
    match s.srcPc with
    | RunPc.call =>
      some { s with src := { val := sv, err := se, done := s.src.done },
                    srcPc := RunPc.closing }
    | RunPc.closing =>
      some { s with src := { val := s.src.val, err := s.src.err, done := true },
                    srcPc := RunPc.exited }
    | RunPc.exited => none
  | ThenLabel.chain =>
    match s.pc with
    | ThenPc.get =>
      match s.src.Get with
      | none => none
      | some (val, err) => some { s with pc := ThenPc.test val err }
    | ThenPc.test val err =>
      match err with
      | some e => some { s with pc := ThenPc.propagate (some e) }
      | none => some { s with pc := ThenPc.call val }
    | ThenPc.propagate err =>
      some { s with out := { val := s.out.val, err := err, done := s.out.done },
                    pc := ThenPc.closing }
    | ThenPc.call val =>
      some { s with pc := ThenPc.storeVal (f ctx val).1 (f ctx val).2,
                    calls := s.calls ++ [(ctx, val)] }
    | ThenPc.storeVal val2 err =>
      some { s with out := { val := val2, err := s.out.err, done := s.out.done },
                    pc := ThenPc.storeErr err }
    | ThenPc.storeErr err =>
      some { s with out := { val := s.out.val, err := err, done := s.out.done },
                    pc := ThenPc.closing }
    | ThenPc.closing =>
      some { s with out := { val := s.out.val, err := s.out.err, done := true },
                    pc := ThenPc.exited }
    | ThenPc.exited => none

/-- An upper bound on the statements the goroutine of `Then` has still to
execute. -/
def ThenPc.rank {T V : Type} : ThenPc T V → Nat
  | ThenPc.get => 6
  | ThenPc.test _ _ => 5
  | ThenPc.call _ => 4
  | ThenPc.storeVal _ _ => 3
  | ThenPc.storeErr _ => 2
  | ThenPc.propagate _ => 2
  | ThenPc.closing => 1
  | ThenPc.exited => 0

/-- An upper bound on the steps a `Then` system can still make. -/
def ThenState.measure {T V : Type} (s : ThenState T V) : Nat :=
  s.srcPc.rank + s.pc.rank

/-! ## WithCancellation -/

/-- Program counter of the caller of the function that `WithCancellation`
returns: at the `select`, past the case `<-done` and before `return val, err`,
or returned. -/
inductive WcMain (V : Type) where
  | selecting
  | afterDone
  | returned (val : V) (err : error)
  deriving DecidableEq, Repr

/-- Labels of the `WithCancellation` system: the context's done-signal fires,
the inner goroutine moves, the `select` takes the case `<-ctx.Done()`, the
`select` takes the case `<-done`, the caller executes `return val, err`. -/
inductive WcLabel where
  | cancel
  | inner
  | selectCtx
  | selectDone
  | finish
  deriving DecidableEq, Repr

/-- State of one invocation of the function that `WithCancellation` returns:
whether `ctx.Done()` is closed, the captured variables `val` and `err`, the
channel `done`, the inner goroutine, the caller, and the invocations of `f`. -/
structure WcState (T V : Type) where
  fired : Bool
  val : V
  err : error
  done : Bool
  pc : RunPc
  main : WcMain V
  calls : List (Context × T)
  deriving DecidableEq, Repr

/-- The function `WithCancellation(f)` invoked on `(ctx, t)`: the variables are
declared, the goroutine is started, the caller stands at the `select`.  The
context has not fired; a schedule that starts with `cancel` is the call with a
context that is already done. -/
def WithCancellation {T V : Type} [Inhabited V] (_f : Func T V) (_ctx : Context)
    (_t : T) : WcState T V :=
  { fired := false, val := default, err := none, done := false,
    pc := RunPc.call, main := WcMain.selecting, calls := [] }

/-- One step of the `WithCancellation` system.  The inner goroutine executes
`val, err = f(ctx, t)` and the deferred `close(done)`.  A `select` case can be
taken only when its channel is closed; when both are closed either may be. -/
def WithCancellation.step {T V : Type} [Inhabited V] (f : Func T V) (ctx : Context)
    (t : T) (s : WcState T V) : WcLabel → Option (WcState T V)
  | WcLabel.cancel =>
    if s.fired then none else some { s with fired := true }
  | WcLabel.inner =>
    match s.pc with
    | RunPc.call =>
      some { s with val := (f ctx t).1, err := (f ctx t).2, pc := RunPc.closing,
                    calls := s.calls ++ [(ctx, t)] }
    | RunPc.closing => some { s with done := true, pc := RunPc.exited }
    | RunPc.exited => none
  | WcLabel.selectCtx =>
    match s.main with
    | WcMain.selecting =>
      if s.fired then some { s with main := WcMain.returned default (ctx.Err s.fired) }
      else none
    | _ => none
  | WcLabel.selectDone =>
    match s.main with
    | WcMain.selecting =>
      if s.done then some { s with main := WcMain.afterDone } else none
    | _ => none
  | WcLabel.finish =>
    match s.main with
    | WcMain.afterDone => some { s with main := WcMain.returned s.val s.err }
    | _ => none

/-- What the invocation has returned, if it has. -/
def WcState.ret {T V : Type} (s : WcState T V) : Option (V × error) :=
  match s.main with
  | WcMain.returned val err => some (val, err)
  | _ => none

/-- Statements the caller has still to execute, at most. -/
def WcMain.rank {V : Type} : WcMain V → Nat
  | WcMain.selecting => 2
  | WcMain.afterDone => 1
  | WcMain.returned _ _ => 0

/-- An upper bound on the steps a `WithCancellation` system can still make. -/
def WcState.measure {T V : Type} (s : WcState T V) : Nat :=
  (if s.fired then 0 else 1) + s.pc.rank + s.main.rank

/-- The done-signal fires before `f(ctx, t)` finishes: in the schedule the
label `cancel` comes before the first move of the inner goroutine, which is
the statement that runs `f`. -/
def firesBeforeFinish : List WcLabel → Bool
  | [] => false
  | WcLabel.cancel :: _ => true
  | WcLabel.inner :: _ => false
  | _ :: ls => firesBeforeFinish ls

/-- The done-signal has not fired by the time `f(ctx, t)` finishes: in the
schedule the first move of the inner goroutine comes before any `cancel`. -/
def finishesBeforeFire : List WcLabel → Bool
  | [] => false
  | WcLabel.inner :: _ => true
  | WcLabel.cancel :: _ => false
  | _ :: ls => finishesBeforeFire ls

/-! ## Wait -/

/-- Program counter of a watcher goroutine of `Wait`: before `w.Wait()` has
returned, at `if err != nil` with the local `err`, before the deferred
`wg.Done()`, finished. -/
inductive WatcherPc where
  | waiting
  | check (err : error)
  | deferred
  | exited
  deriving DecidableEq, Repr

/-- A watcher goroutine together with what its waiter's `Wait()` returns. -/
structure Watcher where
  w : error
  pc : WatcherPc
  deriving DecidableEq, Repr

/-- Labels of the `Wait` system: watcher `i` moves, the goroutine that closes
`done` moves, the `select` takes the case `err := <-errChan`, the `select`
takes the case `<-done`. -/
inductive WaitLabel where
  | watcher (i : Nat)
  | closer
  | selectErr
  | selectDone
  deriving DecidableEq, Repr

/-- State of the package-level `Wait`: the watchers, the counter of the
`sync.WaitGroup`, the buffered channel `errChan` with its capacity, the channel
`done`, the goroutine that closes it (before `wg.Wait()` returns, before the
deferred `close(done)`, finished), and what `Wait` has returned, if it has. -/
structure WaitState where
  ws : List Watcher
  wg : Int
  errChan : List error
  cap : Nat
  done : Bool
  closer : RunPc
  ret : Option error
  deriving DecidableEq, Repr

/-- The function `Wait` applied to waiters whose `Wait()` return the errors
`errs`: `wg.Add(len(ws))`, both channels made, all goroutines started, the
caller at the `select`.  A started goroutine that has not been scheduled and a
goroutine not yet started are the same state. -/
def Wait (errs : List error) : WaitState :=
  { ws := errs.map (fun e => { w := e, pc := WatcherPc.waiting }),
    wg := (errs.length : Int), errChan := [], cap := errs.length, done := false,
    closer := RunPc.call, ret := none }

/-- One step of the `Wait` system.  A watcher executes `err := w.Wait()`, then
`if err != nil { errChan <- err }` (a send blocks while the buffer is full),
then the deferred `wg.Done()`.  The closer executes `wg.Wait()`, which blocks
until the counter is zero, then the deferred `close(done)`.  The `select` of
the caller takes a case that is ready: it returns the error received from
`errChan`, or, `done` being closed, falls through to `return nil`. -/
def Wait.step (s : WaitState) : WaitLabel → Option WaitState
  | WaitLabel.watcher i =>
    match s.ws[i]? with
    | none => none
    | some x =>
      match x.pc with
      | WatcherPc.waiting =>
        some { s with ws := s.ws.set i { x with pc := WatcherPc.check x.w } }
      | WatcherPc.check (some e) =>
        if s.errChan.length < s.cap then
          some { s with ws := s.ws.set i { x with pc := WatcherPc.deferred },
                        errChan := s.errChan ++ [some e] }
        else none
      | WatcherPc.check none =>
        some { s with ws := s.ws.set i { x with pc := WatcherPc.deferred } }
      | WatcherPc.deferred =>
        some { s with ws := s.ws.set i { x with pc := WatcherPc.exited },
                      wg := s.wg - 1 }
      | WatcherPc.exited => none
  | WaitLabel.closer =>
    match s.closer with
    | RunPc.call => if s.wg = 0 then some { s with closer := RunPc.closing } else none
    | RunPc.closing => some { s with done := true, closer := RunPc.exited }
    | RunPc.exited => none
  | WaitLabel.selectErr =>
    match s.ret, s.errChan with
    | none, e :: rest => some { s with errChan := rest, ret := some e }
    | _, _ => none
  | WaitLabel.selectDone =>
    match s.ret with
    | none => if s.done then some { s with ret := some none } else none
    | some _ => none

/-- Statements a watcher has still to execute. -/
def WatcherPc.rank : WatcherPc → Nat
  | WatcherPc.waiting => 3
  | WatcherPc.check _ => 2
  | WatcherPc.deferred => 1
  | WatcherPc.exited => 0

/-- One for a watcher that has not executed `wg.Done()`, zero otherwise. -/
def Watcher.live (x : Watcher) : Nat :=
  if x.pc = WatcherPc.exited then 0 else 1

/-- Whether the waiter's `Wait()` has returned in this watcher. -/
def Watcher.waited (x : Watcher) : Bool :=
  match x.pc with
  | WatcherPc.waiting => false
  | _ => true

/-- An upper bound on the steps a `Wait` system can still make. -/
def WaitState.measure (s : WaitState) : Nat :=
  (s.ws.map (fun x => x.pc.rank)).sum + s.closer.rank + (if s.ret.isNone then 1 else 0)

/-! ## Inputs of the package's tests -/

/-- The context `context.Background()` of the tests. -/
def background : Context := { key := 0, cause := ErrVal.Canceled }

/-- The test function `doubler`. -/
def doubler : Func Nat Nat := fun _ i => (i * 2, none)

/-- The test error `ErrFail = errors.New("fail")`. -/
def ErrFail : error := some (ErrVal.other 1)

/-- The test function `alwaysErr`. -/
def alwaysErr : Func Nat Nat := fun _ _ => (0, ErrFail)

/-- The test function `tripler`. -/
def tripler : Func Nat Nat := fun _ i => (i * 3, none)

/-- A computation that hands the package's own sentinel back as its error. -/
def returnsIncomplete : Func Nat Nat := fun _ _ => (0, ErrIncomplete)

/-- The context of `TestWithCancellation`, made by `context.WithTimeout`: when
its done-signal fires, `Err()` is `context.DeadlineExceeded`. -/
def withTimeout : Context := { key := 1, cause := ErrVal.DeadlineExceeded }

/-! ## Invariants -/

/-- What holds of a `Run` system at each program counter. -/
def Run.Inv {T V : Type} (ctx : Context) (t : T) (f : Func T V) (s : RunState T V) : Prop :=
  match s.pc with
  | RunPc.call => s.p.done = false ∧ s.calls = []
  | RunPc.closing => s.p.done = false ∧ (s.p.val, s.p.err) = f ctx t ∧ s.calls = [(ctx, t)]
  | RunPc.exited => s.p.done = true ∧ (s.p.val, s.p.err) = f ctx t ∧ s.calls = [(ctx, t)]

/-- The pair the promise of `Then` ends with, read off the source: a source
that fails leaves the value at zero and hands its error on, a source that
succeeds gives its value to `f`. -/
def Then.result {T V : Type} [Inhabited V] (ctx : Context) (sv : T) (se : error)
    (f : Func T V) : V × error :=
  match se with
  | some e => (default, some e)
  | none => f ctx sv

/-- The invocations of `f` a finished goroutine of `Then` has made. -/
def Then.log {T : Type} (ctx : Context) (sv : T) (se : error) : List (Context × T) :=
  match se with
  | some _ => []
  | none => [(ctx, sv)]

/-- What holds of the source promise at each program counter of its writer. -/
def Then.SrcInv {T V : Type} (sv : T) (se : error) (s : ThenState T V) : Prop :=
  match s.srcPc with
  | RunPc.call => s.src.done = false
  | RunPc.closing => s.src.done = false ∧ s.src.val = sv ∧ s.src.err = se
  | RunPc.exited => s.src.done = true ∧ s.src.val = sv ∧ s.src.err = se

/-- What holds of the goroutine of `Then` at each program counter. -/
def Then.OutInv {T V : Type} [Inhabited V] (ctx : Context) (sv : T) (se : error)
    (f : Func T V) (s : ThenState T V) : Prop :=
  match s.pc with
  | ThenPc.get => s.out = Promise.fresh ∧ s.calls = []
  | ThenPc.test val err => val = sv ∧ err = se ∧ s.out = Promise.fresh ∧ s.calls = []
  | ThenPc.propagate err =>
    err = se ∧ err ≠ none ∧ s.out = Promise.fresh ∧ s.calls = []
  | ThenPc.call val => val = sv ∧ se = none ∧ s.out = Promise.fresh ∧ s.calls = []
  | ThenPc.storeVal val2 err =>
    (val2, err) = f ctx sv ∧ se = none ∧ s.out = Promise.fresh ∧ s.calls = [(ctx, sv)]
  | ThenPc.storeErr err =>
    err = (f ctx sv).2 ∧ se = none ∧ s.out.val = (f ctx sv).1 ∧ s.out.err = none ∧
      s.out.done = false ∧ s.calls = [(ctx, sv)]
  | ThenPc.closing =>
    s.out.done = false ∧ (s.out.val, s.out.err) = Then.result ctx sv se f ∧
      s.calls = Then.log ctx sv se
  | ThenPc.exited =>
    s.out.done = true ∧ (s.out.val, s.out.err) = Then.result ctx sv se f ∧
      s.calls = Then.log ctx sv se

/-- The invariant of the `Then` system. -/
def Then.Inv {T V : Type} [Inhabited V] (ctx : Context) (sv : T) (se : error)
    (f : Func T V) (s : ThenState T V) : Prop :=
  Then.SrcInv sv se s ∧ Then.OutInv ctx sv se f s

/-- What holds of a `WithCancellation` system: the captured variables at each
program counter of the inner goroutine, and what the caller can have seen. -/
def WithCancellation.Inv {T V : Type} [Inhabited V] (f : Func T V) (ctx : Context) (t : T)
    (s : WcState T V) : Prop :=
  (match s.pc with
    | RunPc.call => s.done = false ∧ s.calls = []
    | RunPc.closing => s.done = false ∧ (s.val, s.err) = f ctx t ∧ s.calls = [(ctx, t)]
    | RunPc.exited => s.done = true ∧ (s.val, s.err) = f ctx t ∧ s.calls = [(ctx, t)]) ∧
  (match s.main with
    | WcMain.selecting => True
    | WcMain.afterDone => s.done = true
    | WcMain.returned val err =>
      (val, err) = f ctx t ∨ (s.fired = true ∧ (val, err) = (default, some ctx.cause)))

/-- A watcher whose waiter returns nil: it never holds a non-nil `err`. -/
def Watcher.quiet (x : Watcher) : Prop :=
  x.w = none ∧ ∀ e, x.pc ≠ WatcherPc.check (some e)

/-- What holds of a `Wait` system over waiters that all return nil (the list
`errs` of their results is kept by the watchers): nothing is ever sent, the
counter of the wait group is the number of watchers that have not executed
`wg.Done()`, the closer gets past `wg.Wait()` only at zero, `done` is closed
exactly when the closer has finished, and `Wait` returns only nil, only after
`done` is closed. -/
def Wait.NilInv (errs : List error) (s : WaitState) : Prop :=
  s.ws.map Watcher.w = errs ∧
  (∀ x ∈ s.ws, x.quiet) ∧
  s.errChan = [] ∧
  s.wg = (((s.ws.map Watcher.live).sum : Nat) : Int) ∧
  (s.closer ≠ RunPc.call → s.wg = 0) ∧
  (s.done = true ↔ s.closer = RunPc.exited) ∧
  (∀ r, s.ret = some r → r = none ∧ s.done = true)

/-! ## Schedules: general facts -/

theorem exec_nil {S L : Type} (step : S → L → Option S) (s : S) :
    exec step s [] = some s := rfl

theorem exec_cons {S L : Type} (step : S → L → Option S) (s s2 : S) (l : L) (ls : List L) :
    exec step s (l :: ls) = some s2 ↔ ∃ s1, step s l = some s1 ∧ exec step s1 ls = some s2 := by
  simp only [exec]
  cases h : step s l with
  | none => simp
  | some s1 => simp

theorem exec_append {S L : Type} (step : S → L → Option S) (s s2 : S) (σ τ : List L) :
    exec step s (σ ++ τ) = some s2 ↔ ∃ s1, exec step s σ = some s1 ∧ exec step s1 τ = some s2 := by
  induction σ generalizing s with
  | nil => simp [exec]
  | cons l ls ih =>
    simp only [List.cons_append, exec_cons, ih]
    constructor
    · rintro ⟨a, h1, b, h2, h3⟩
      exact ⟨b, ⟨a, h1, h2⟩, h3⟩
    · rintro ⟨b, ⟨a, h1, h2⟩, h3⟩
      exact ⟨a, h1, b, h2, h3⟩

/-- A property kept by every step holds at the end of every schedule. -/
theorem exec_invariant {S L : Type} (step : S → L → Option S) (P : S → Prop)
    (hstep : ∀ s l s1, P s → step s l = some s1 → P s1) :
    ∀ (σ : List L) (s s2 : S), P s → exec step s σ = some s2 → P s2 := by
  intro σ
  induction σ with
  | nil =>
    intro s s2 hP h
    simp only [exec, Option.some.injEq] at h
    exact h ▸ hP
  | cons l ls ih =>
    intro s s2 hP h
    obtain ⟨s1, h1, h2⟩ := (exec_cons step s s2 l ls).1 h
    exact ih s1 s2 (hstep s l s1 hP h1) h2

/-- A measure that every step decreases bounds the length of every schedule. -/
theorem exec_measure {S L : Type} (step : S → L → Option S) (μ : S → Nat)
    (hstep : ∀ s l s1, step s l = some s1 → μ s1 < μ s) :
    ∀ (σ : List L) (s s2 : S), exec step s σ = some s2 → μ s2 + σ.length ≤ μ s := by
  intro σ
  induction σ with
  | nil =>
    intro s s2 h
    simp only [exec, Option.some.injEq] at h
    simp [h]
  | cons l ls ih =>
    intro s s2 h
    obtain ⟨s1, h1, h2⟩ := (exec_cons step s s2 l ls).1 h
    have := ih s1 s2 h2
    have := hstep s l s1 h1
    simp only [List.length_cons]
    omega

/-! ## Run: lemmas -/

theorem Run_inv_init {T V : Type} [Inhabited V] (ctx : Context) (t : T) (f : Func T V) :
    Run.Inv ctx t f (Run ctx t f) := by
  simp [Run.Inv, Run, Promise.fresh]

theorem Run_inv_step {T V : Type} (ctx : Context) (t : T) (f : Func T V)
    (s : RunState T V) (l : RunLabel) (s1 : RunState T V)
    (hI : Run.Inv ctx t f s) (h : Run.step ctx t f s l = some s1) : Run.Inv ctx t f s1 := by
  obtain ⟨p, pc, calls⟩ := s
  cases l
  cases pc <;> simp_all [Run.Inv, Run.step] <;> subst h <;> simp_all

theorem Run_inv_exec {T V : Type} [Inhabited V] (ctx : Context) (t : T) (f : Func T V)
    (σ : List RunLabel) (s : RunState T V)
    (h : exec (Run.step ctx t f) (Run ctx t f) σ = some s) : Run.Inv ctx t f s :=
  exec_invariant _ _ (Run_inv_step ctx t f) σ _ s (Run_inv_init ctx t f) h

theorem Run_rank_step {T V : Type} (ctx : Context) (t : T) (f : Func T V)
    (s : RunState T V) (l : RunLabel) (s1 : RunState T V)
    (h : Run.step ctx t f s l = some s1) : s1.pc.rank < s.pc.rank := by
  obtain ⟨p, pc, calls⟩ := s
  cases l
  cases pc <;> simp_all [Run.step] <;> subst h <;> simp [RunPc.rank]

/-- Once the channel of a `Run` promise is closed no step changes the promise. -/
theorem Run_done_step {T V : Type} (ctx : Context) (t : T) (f : Func T V)
    (s : RunState T V) (l : RunLabel) (s1 : RunState T V)
    (hI : Run.Inv ctx t f s) (hd : s.p.done = true)
    (h : Run.step ctx t f s l = some s1) : s1.p = s.p := by
  obtain ⟨p, pc, calls⟩ := s
  cases l
  cases pc <;> simp_all [Run.Inv, Run.step]

/-! ## Run: the claim -/

/-- C1: `Run(ctx, x, f).Get()` returns exactly the pair that `f(ctx, x)` returns.
In every execution of the system started by `Run`, whenever `Get` returns it
returns the pair `f ctx t` untransformed; an execution in which the goroutine
cannot move any more has `Get` returning that pair; and no execution has more
than two steps, so that the goroutine always gets there.  The function `f` is
invoked at most once, on `(ctx, t)`. -/
theorem Run_Get_returns_f {T V : Type} [Inhabited V] (ctx : Context) (t : T) (f : Func T V)
    (σ : List RunLabel) (s : RunState T V)
    (h : exec (Run.step ctx t f) (Run ctx t f) σ = some s) :
    (∀ r, s.p.Get = some r → r = f ctx t) ∧
    ((∀ l, Run.step ctx t f s l = none) → s.p.Get = some (f ctx t)) ∧
    σ.length ≤ 2 ∧ (s.calls = [] ∨ s.calls = [(ctx, t)]) := by
  have hI := Run_inv_exec ctx t f σ s h
  have hm := exec_measure (Run.step ctx t f) (fun s => s.pc.rank)
    (Run_rank_step ctx t f) σ _ s h
  obtain ⟨p, pc, calls⟩ := s
  refine ⟨?_, ?_, ?_, ?_⟩
  · intro r hr
    cases pc <;> simp_all [Run.Inv, Promise.Get]
  · intro hl
    have := hl RunLabel.go
    cases pc <;> simp_all [Run.Inv, Promise.Get, Run.step]
  · simp only [Run, RunPc.rank] at hm
    omega
  · cases pc <;> simp_all [Run.Inv]

/-- C1 at the first case of `TestRun`: `Run(ctx, 10, doubler).Get()` is `(20, nil)`. -/
theorem Run_Get_returns_f_witness :
    exec (Run.step background 10 doubler) (Run background 10 doubler)
        [RunLabel.go, RunLabel.go] =
      some { p := { val := 20, err := none, done := true }, pc := RunPc.exited,
             calls := [(background, 10)] } ∧
    (Promise.Get { val := 20, err := none, done := true } : Option (Nat × error)) =
      some (20, none) :=
  ⟨rfl, (Run_Get_returns_f background 10 doubler [RunLabel.go, RunLabel.go] _ rfl).2.1
    (fun l => by cases l; rfl)⟩

/-! ## Then: lemmas -/

theorem Then_inv_init {T V : Type} [Inhabited T] [Inhabited V] (ctx : Context) (sv : T)
    (se : error) (f : Func T V) : Then.Inv ctx sv se f (Then ctx f) := by
  simp [Then.Inv, Then.SrcInv, Then.OutInv, Then, Promise.fresh]

theorem Then_inv_step {T V : Type} [Inhabited V] (ctx : Context) (sv : T) (se : error)
    (f : Func T V) (s : ThenState T V) (l : ThenLabel) (s1 : ThenState T V)
    (hI : Then.Inv ctx sv se f s) (h : Then.step ctx sv se f s l = some s1) :
    Then.Inv ctx sv se f s1 := by
  obtain ⟨src, srcPc, out, pc, calls⟩ := s
  obtain ⟨hS, hO⟩ := hI
  cases l with
  | source =>
    cases srcPc <;> simp [Then.step] at h <;> subst h <;>
      simp_all [Then.Inv, Then.SrcInv, Then.OutInv]
  | chain =>
    cases pc with
    | get =>
      cases srcPc <;> simp_all [Then.step, Then.SrcInv, Promise.Get]
      subst h
      simp_all [Then.Inv, Then.SrcInv, Then.OutInv]
    | test val err =>
      obtain ⟨h1, h2, h3, h4⟩ := hO
      subst h1 h2
      cases err <;> simp [Then.step] at h <;> subst h <;>
        simp_all [Then.Inv, Then.SrcInv, Then.OutInv]
    | propagate err =>
      simp [Then.step] at h
      subst h
      cases err <;>
        simp_all [Then.Inv, Then.SrcInv, Then.OutInv, Then.result, Then.log, Promise.fresh]
      simp [← hO.1, Then.result, Then.log]
    | call val =>
      simp [Then.step] at h
      subst h
      simp_all [Then.Inv, Then.SrcInv, Then.OutInv]
    | storeVal val2 err =>
      simp [Then.step] at h
      subst h
      simp_all [Then.Inv, Then.SrcInv, Then.OutInv, Promise.fresh]
      simp [← hO.1]
    | storeErr err =>
      simp [Then.step] at h
      subst h
      simp_all [Then.Inv, Then.SrcInv, Then.OutInv, Then.result, Then.log]
    | closing =>
      simp [Then.step] at h
      subst h
      simp_all [Then.Inv, Then.SrcInv, Then.OutInv]
    | exited => simp [Then.step] at h

theorem Then_inv_exec {T V : Type} [Inhabited T] [Inhabited V] (ctx : Context) (sv : T)
    (se : error) (f : Func T V) (σ : List ThenLabel) (s : ThenState T V)
    (h : exec (Then.step ctx sv se f) (Then ctx f) σ = some s) : Then.Inv ctx sv se f s :=
  exec_invariant _ _ (Then_inv_step ctx sv se f) σ _ s (Then_inv_init ctx sv se f) h

theorem Then_measure_step {T V : Type} (ctx : Context) (sv : T) (se : error)
    (f : Func T V) (s : ThenState T V) (l : ThenLabel) (s1 : ThenState T V)
    (h : Then.step ctx sv se f s l = some s1) : s1.measure < s.measure := by
  obtain ⟨src, srcPc, out, pc, calls⟩ := s
  cases l with
  | source =>
    cases srcPc <;> simp [Then.step] at h <;> subst h <;>
      simp [ThenState.measure, RunPc.rank]
  | chain =>
    cases pc with
    | get =>
      simp only [Then.step] at h
      cases hg : src.Get with
      | none => simp [hg] at h
      | some r =>
        simp [hg] at h
        subst h
        simp [ThenState.measure, ThenPc.rank]
    | test val err =>
      cases err <;> simp [Then.step] at h <;> subst h <;>
        simp [ThenState.measure, ThenPc.rank]
    | exited => simp [Then.step] at h
    | _ =>
      simp [Then.step] at h
      subst h
      simp [ThenState.measure, ThenPc.rank]

/-- Once the channel of the promise of `Then` is closed no step changes the
promise. -/
theorem Then_done_step {T V : Type} [Inhabited V] (ctx : Context) (sv : T) (se : error)
    (f : Func T V) (s : ThenState T V) (l : ThenLabel) (s1 : ThenState T V)
    (hI : Then.Inv ctx sv se f s) (hd : s.out.done = true)
    (h : Then.step ctx sv se f s l = some s1) : s1.out = s.out := by
  obtain ⟨src, srcPc, out, pc, calls⟩ := s
  obtain ⟨hS, hO⟩ := hI
  cases l with
  | source => cases srcPc <;> simp [Then.step] at h <;> subst h <;> rfl
  | chain =>
    cases pc <;> simp_all [Then.OutInv, Then.step, Promise.fresh]

/-- A `Then` system in which no goroutine can move has closed its channel. -/
theorem Then_stuck_done {T V : Type} [Inhabited V] (ctx : Context) (sv : T) (se : error)
    (f : Func T V) (s : ThenState T V) (hI : Then.Inv ctx sv se f s)
    (hl : ∀ l, Then.step ctx sv se f s l = none) :
    s.out.done = true ∧ (s.out.val, s.out.err) = Then.result ctx sv se f ∧
      s.calls = Then.log ctx sv se := by
  obtain ⟨src, srcPc, out, pc, calls⟩ := s
  obtain ⟨hS, hO⟩ := hI
  have h1 := hl ThenLabel.source
  have h2 := hl ThenLabel.chain
  cases srcPc <;> simp [Then.step] at h1
  cases pc <;> simp_all [Then.OutInv, Then.SrcInv, Then.step, Promise.Get]
  cases val_1 : se <;> simp_all

theorem Then_length_le {T V : Type} [Inhabited T] [Inhabited V] (ctx : Context) (sv : T)
    (se : error) (f : Func T V) (σ : List ThenLabel) (s : ThenState T V)
    (h : exec (Then.step ctx sv se f) (Then ctx f) σ = some s) : σ.length ≤ 8 := by
  have hm := exec_measure (Then.step ctx sv se f) ThenState.measure
    (Then_measure_step ctx sv se f) σ _ s h
  simp only [Then, ThenState.measure, RunPc.rank, ThenPc.rank] at hm
  omega

/-! ## Then: the claims -/

/-- C2: when the source promise completes with a non-nil error `e`, whatever
value it holds, `Then(ctx, p, f).Get()` returns the zero value together with
exactly `e`, and `f` is never invoked.  In every execution of the system the
log of invocations of `f` is empty and `Get` on the new promise, whenever it
returns, returns `(zero, e)`; an execution in which no goroutine can move any
more has `Get` returning that pair; and no execution has more than eight
steps. -/
theorem Then_propagates_source_error {T V : Type} [Inhabited T] [Inhabited V]
    (ctx : Context) (sv : T) (e : ErrVal) (f : Func T V)
    (σ : List ThenLabel) (s : ThenState T V)
    (h : exec (Then.step ctx sv (some e) f) (Then ctx f) σ = some s) :
    s.calls = [] ∧
    (∀ r, s.out.Get = some r → r = (default, some e)) ∧
    ((∀ l, Then.step ctx sv (some e) f s l = none) → s.out.Get = some (default, some e)) ∧
    σ.length ≤ 8 := by
  have hI := Then_inv_exec ctx sv (some e) f σ s h
  refine ⟨?_, ?_, ?_, Then_length_le ctx sv (some e) f σ s h⟩
  · obtain ⟨src, srcPc, out, pc, calls⟩ := s
    obtain ⟨-, hO⟩ := hI
    cases pc <;> simp_all [Then.OutInv, Then.log]
  · intro r hr
    obtain ⟨src, srcPc, out, pc, calls⟩ := s
    obtain ⟨-, hO⟩ := hI
    cases pc <;> simp_all [Then.OutInv, Then.result, Promise.Get, Promise.fresh]
  · intro hl
    obtain ⟨h1, h2, -⟩ := Then_stuck_done ctx sv (some e) f s hI hl
    simp only [Then.result] at h2
    simp [Promise.Get, h1, h2]

/-- C2 at the second case of `TestThen`: the source is `Run(ctx, 0, alwaysErr)`,
which completes with `(0, ErrFail)`; the new promise yields the zero value and
`ErrFail`, and the log of invocations stays empty. -/
theorem Then_propagates_source_error_witness :
    exec (Then.step background 0 ErrFail tripler) (Then background tripler)
        [ThenLabel.source, ThenLabel.source, ThenLabel.chain, ThenLabel.chain,
         ThenLabel.chain, ThenLabel.chain] =
      some { src := { val := 0, err := ErrFail, done := true }, srcPc := RunPc.exited,
             out := { val := 0, err := ErrFail, done := true }, pc := ThenPc.exited,
             calls := [] } ∧
    (Promise.Get { val := 0, err := ErrFail, done := true } : Option (Nat × error)) =
      some (0, ErrFail) :=
  ⟨rfl,
    (Then_propagates_source_error background 0 (ErrVal.other 1) tripler
      [ThenLabel.source, ThenLabel.source, ThenLabel.chain, ThenLabel.chain,
       ThenLabel.chain, ThenLabel.chain] _ rfl).2.2.1
      (fun l => by cases l <;> rfl)⟩

/-- C3: when the source promise completes with value `v` and a nil error,
`Then(ctx, p, f).Get()` returns exactly the pair that `f(ctx, v)` returns, and
`f` is invoked with the context passed to `Then` and with `v`.  In every
execution of the system `Get` on the new promise, whenever it returns, returns
`f ctx sv`; the log of invocations is empty or the single entry `(ctx, sv)`,
and it is that entry once the promise is complete; an execution in which no
goroutine can move any more has `Get` returning `f ctx sv`; and no execution
has more than eight steps. -/
theorem Then_applies_f {T V : Type} [Inhabited T] [Inhabited V]
    (ctx : Context) (sv : T) (f : Func T V)
    (σ : List ThenLabel) (s : ThenState T V)
    (h : exec (Then.step ctx sv none f) (Then ctx f) σ = some s) :
    (∀ r, s.out.Get = some r → r = f ctx sv ∧ s.calls = [(ctx, sv)]) ∧
    (s.calls = [] ∨ s.calls = [(ctx, sv)]) ∧
    ((∀ l, Then.step ctx sv none f s l = none) → s.out.Get = some (f ctx sv)) ∧
    σ.length ≤ 8 := by
  have hI := Then_inv_exec ctx sv none f σ s h
  refine ⟨?_, ?_, ?_, Then_length_le ctx sv none f σ s h⟩
  · intro r hr
    obtain ⟨src, srcPc, out, pc, calls⟩ := s
    obtain ⟨-, hO⟩ := hI
    cases pc <;> simp_all [Then.OutInv, Then.result, Then.log, Promise.Get, Promise.fresh]
  · obtain ⟨src, srcPc, out, pc, calls⟩ := s
    obtain ⟨-, hO⟩ := hI
    cases pc <;> simp_all [Then.OutInv, Then.log]
  · intro hl
    obtain ⟨h1, h2, -⟩ := Then_stuck_done ctx sv none f s hI hl
    simp only [Then.result] at h2
    simp [Promise.Get, h1, h2]

/-- C3 at the first case of `TestThen`, with `tripler` chained after
`Run(ctx, 10, doubler)`, which completes with `(20, nil)`: the new promise
yields `(60, nil)`. -/
theorem Then_applies_f_witness :
    exec (Then.step background 20 none tripler) (Then background tripler)
        [ThenLabel.source, ThenLabel.source, ThenLabel.chain, ThenLabel.chain,
         ThenLabel.chain, ThenLabel.chain, ThenLabel.chain, ThenLabel.chain] =
      some { src := { val := 20, err := none, done := true }, srcPc := RunPc.exited,
             out := { val := 60, err := none, done := true }, pc := ThenPc.exited,
             calls := [(background, 20)] } ∧
    (Promise.Get { val := 60, err := none, done := true } : Option (Nat × error)) =
      some (60, none) :=
  ⟨rfl,
    (Then_applies_f background 20 tripler
      [ThenLabel.source, ThenLabel.source, ThenLabel.chain, ThenLabel.chain,
       ThenLabel.chain, ThenLabel.chain, ThenLabel.chain, ThenLabel.chain] _ rfl).2.2.1
      (fun l => by cases l <;> rfl)⟩

/-! ## Completed promises stay as they are -/

theorem Run_done_exec {T V : Type} (ctx : Context) (t : T) (f : Func T V)
    (τ : List RunLabel) (s s2 : RunState T V) (hI : Run.Inv ctx t f s)
    (hd : s.p.done = true) (h : exec (Run.step ctx t f) s τ = some s2) : s2.p = s.p := by
  have key := exec_invariant (Run.step ctx t f)
    (fun x => Run.Inv ctx t f x ∧ x.p = s.p)
    (fun a l b hP hab =>
      ⟨Run_inv_step ctx t f a l b hP.1 hab,
        (Run_done_step ctx t f a l b hP.1 (by rw [hP.2]; exact hd) hab).trans hP.2⟩)
    τ s s2 ⟨hI, rfl⟩ h
  exact key.2

theorem Then_done_exec {T V : Type} [Inhabited V] (ctx : Context) (sv : T) (se : error)
    (f : Func T V) (τ : List ThenLabel) (s s2 : ThenState T V)
    (hI : Then.Inv ctx sv se f s) (hd : s.out.done = true)
    (h : exec (Then.step ctx sv se f) s τ = some s2) : s2.out = s.out := by
  have key := exec_invariant (Then.step ctx sv se f)
    (fun x => Then.Inv ctx sv se f x ∧ x.out = s.out)
    (fun a l b hP hab =>
      ⟨Then_inv_step ctx sv se f a l b hP.1 hab,
        (Then_done_step ctx sv se f a l b hP.1 (by rw [hP.2]; exact hd) hab).trans hP.2⟩)
    τ s s2 ⟨hI, rfl⟩ h
  exact key.2

/-- C4: `GetNow` on a pending promise returns the zero value and `ErrIncomplete`
itself; on a complete promise it returns the pair `Get` returns; and repeated
calls after completion return that same pair: for a promise made by `Run` or by
`Then`, once the promise is complete in a state `s`, `GetNow` in every later
state `s2` equals `GetNow` in `s`, and equals what `Get` returns there. -/
theorem GetNow_pending_complete_stable (T V : Type) [Inhabited T] [Inhabited V] :
    (∀ p : Promise V, p.done = false → p.GetNow = (default, ErrIncomplete)) ∧
    (∀ p : Promise V, p.done = true → p.Get = some p.GetNow) ∧
    (∀ (ctx : Context) (t : T) (f : Func T V) (σ τ : List RunLabel) (s s2 : RunState T V),
      exec (Run.step ctx t f) (Run ctx t f) σ = some s →
      exec (Run.step ctx t f) s τ = some s2 → s.p.done = true →
      s2.p.GetNow = s.p.GetNow ∧ s2.p.Get = some s.p.GetNow) ∧
    (∀ (ctx : Context) (sv : T) (se : error) (f : Func T V) (σ τ : List ThenLabel)
      (s s2 : ThenState T V),
      exec (Then.step ctx sv se f) (Then ctx f) σ = some s →
      exec (Then.step ctx sv se f) s τ = some s2 → s.out.done = true →
      s2.out.GetNow = s.out.GetNow ∧ s2.out.Get = some s.out.GetNow) := by
  refine ⟨?_, ?_, ?_, ?_⟩
  · intro p hp
    simp [Promise.GetNow, hp]
  · intro p hp
    simp [Promise.GetNow, Promise.Get, hp]
  · intro ctx t f σ τ s s2 h1 h2 hd
    have hI := Run_inv_exec ctx t f σ s h1
    have he := Run_done_exec ctx t f τ s s2 hI hd h2
    rw [he]
    simp [Promise.GetNow, Promise.Get, hd]
  · intro ctx sv se f σ τ s s2 h1 h2 hd
    have hI := Then_inv_exec ctx sv se f σ s h1
    have he := Then_done_exec ctx sv se f τ s s2 hI hd h2
    rw [he]
    simp [Promise.GetNow, Promise.Get, hd]

/-- C4 on `TestPromise_GetNow`: a promise of `Run` whose goroutine has stored its
pair but not closed the channel answers `(0, ErrIncomplete)`, and after the
close it answers `(20, nil)`, which is what `Get` returns. -/
theorem GetNow_pending_complete_stable_witness :
    (Promise.GetNow { val := 20, err := none, done := false } : Nat × error) =
      (0, ErrIncomplete) ∧
    (Promise.GetNow { val := 20, err := none, done := true } : Nat × error) = (20, none) ∧
    (Promise.Get { val := 20, err := none, done := true } : Option (Nat × error)) =
      some (20, none) :=
  ⟨(GetNow_pending_complete_stable Nat Nat).1 { val := 20, err := none, done := false } rfl,
    ((GetNow_pending_complete_stable Nat Nat).2.2.1 background 10 doubler
      [RunLabel.go, RunLabel.go] []
      { p := { val := 20, err := none, done := true }, pc := RunPc.exited,
        calls := [(background, 10)] }
      { p := { val := 20, err := none, done := true }, pc := RunPc.exited,
        calls := [(background, 10)] } rfl rfl rfl).1,
    (GetNow_pending_complete_stable Nat Nat).2.1 { val := 20, err := none, done := true } rfl⟩

theorem Run_stuck_done {T V : Type} (ctx : Context) (t : T) (f : Func T V)
    (s : RunState T V) (hI : Run.Inv ctx t f s)
    (hl : ∀ l, Run.step ctx t f s l = none) : s.p.done = true := by
  obtain ⟨p, pc, calls⟩ := s
  have := hl RunLabel.go
  cases pc <;> simp_all [Run.Inv, Run.step]

/-- C10: a promise made by `Run` or by `Then` completes once and for all.  Its
channel is open when the promise is returned; once it is closed in a state `s`
it is closed in every later state `s2` and the stored value and error are the
same there, so they are written only before the close; hence whatever `Get`
(and `Wait`, for the error) returns in `s` it returns in `s2`; and an execution
in which no goroutine can move any more has the channel closed. -/
theorem promise_completes_once (T V : Type) [Inhabited T] [Inhabited V] :
    (∀ (ctx : Context) (t : T) (f : Func T V) (σ τ : List RunLabel) (s s2 : RunState T V),
      exec (Run.step ctx t f) (Run ctx t f) σ = some s →
      exec (Run.step ctx t f) s τ = some s2 →
      (Run ctx t f).p.done = false ∧
      (s.p.done = true → s2.p.done = true ∧ s2.p.val = s.p.val ∧ s2.p.err = s.p.err) ∧
      (∀ r, s.p.Get = some r → s2.p.Get = some r) ∧
      (∀ e, s.p.Wait = some e → s2.p.Wait = some e) ∧
      ((∀ l, Run.step ctx t f s2 l = none) → s2.p.done = true)) ∧
    (∀ (ctx : Context) (sv : T) (se : error) (f : Func T V) (σ τ : List ThenLabel)
      (s s2 : ThenState T V),
      exec (Then.step ctx sv se f) (Then ctx f) σ = some s →
      exec (Then.step ctx sv se f) s τ = some s2 →
      (Then ctx f).out.done = false ∧
      (s.out.done = true →
        s2.out.done = true ∧ s2.out.val = s.out.val ∧ s2.out.err = s.out.err) ∧
      (∀ r, s.out.Get = some r → s2.out.Get = some r) ∧
      (∀ e, s.out.Wait = some e → s2.out.Wait = some e) ∧
      ((∀ l, Then.step ctx sv se f s2 l = none) → s2.out.done = true)) := by
  constructor
  · intro ctx t f σ τ s s2 h1 h2
    have hI := Run_inv_exec ctx t f σ s h1
    have hI2 := Run_inv_exec ctx t f (σ ++ τ) s2
      ((exec_append _ _ _ _ _).2 ⟨s, h1, h2⟩)
    have key : s.p.done = true → s2.p = s.p :=
      fun hd => Run_done_exec ctx t f τ s s2 hI hd h2
    refine ⟨rfl, ?_, ?_, ?_, Run_stuck_done ctx t f s2 hI2⟩
    · intro hd
      rw [key hd]
      exact ⟨hd, rfl, rfl⟩
    · intro r hr
      by_cases hd : s.p.done = true
      · rw [key hd]
        exact hr
      · simp [Promise.Get, hd] at hr
    · intro e he
      by_cases hd : s.p.done = true
      · rw [key hd]
        exact he
      · simp [Promise.Wait, hd] at he
  · intro ctx sv se f σ τ s s2 h1 h2
    have hI := Then_inv_exec ctx sv se f σ s h1
    have hI2 := Then_inv_exec ctx sv se f (σ ++ τ) s2
      ((exec_append _ _ _ _ _).2 ⟨s, h1, h2⟩)
    have key : s.out.done = true → s2.out = s.out :=
      fun hd => Then_done_exec ctx sv se f τ s s2 hI hd h2
    refine ⟨rfl, ?_, ?_, ?_, fun hl => (Then_stuck_done ctx sv se f s2 hI2 hl).1⟩
    · intro hd
      rw [key hd]
      exact ⟨hd, rfl, rfl⟩
    · intro r hr
      by_cases hd : s.out.done = true
      · rw [key hd]
        exact hr
      · simp [Promise.Get, hd] at hr
    · intro e he
      by_cases hd : s.out.done = true
      · rw [key hd]
        exact he
      · simp [Promise.Wait, hd] at he

/-- C10 on `Run(ctx, 10, doubler)`: after the two steps of the goroutine the
promise is complete, `Get` returns `(20, nil)`, and nothing more can move. -/
theorem promise_completes_once_witness :
    exec (Run.step background 10 doubler) (Run background 10 doubler)
        [RunLabel.go, RunLabel.go] =
      some { p := { val := 20, err := none, done := true }, pc := RunPc.exited,
             calls := [(background, 10)] } ∧
    (∀ r, (Promise.Get { val := 20, err := none, done := true } : Option (Nat × error)) =
        some r →
      (Promise.Get { val := 20, err := none, done := true } : Option (Nat × error)) =
        some r) :=
  ⟨rfl,
    ((promise_completes_once Nat Nat).1 background 10 doubler [RunLabel.go, RunLabel.go] []
      { p := { val := 20, err := none, done := true }, pc := RunPc.exited,
        calls := [(background, 10)] }
      { p := { val := 20, err := none, done := true }, pc := RunPc.exited,
        calls := [(background, 10)] } rfl rfl).2.2.1⟩

/-! ## The sentinel -/

/-- C5 as stated fails: `Run(ctx, 0, returnsIncomplete)` is complete after the
two steps of its goroutine, and `GetNow` on it returns an error equal to
`ErrIncomplete` although the promise has completed. -/
theorem GetNow_ErrIncomplete_after_completion :
    exec (Run.step background 0 returnsIncomplete) (Run background 0 returnsIncomplete)
        [RunLabel.go, RunLabel.go] =
      some { p := { val := 0, err := ErrIncomplete, done := true }, pc := RunPc.exited,
             calls := [(background, 0)] } ∧
    (Promise.GetNow { val := 0, err := ErrIncomplete, done := true } : Nat × error).2 =
      ErrIncomplete ∧
    ¬ (({ val := 0, err := ErrIncomplete, done := true } : Promise Nat).done = false) :=
  ⟨rfl, rfl, by decide⟩

/-- C5, amended: for a promise made by `Run` whose computation does not return
`ErrIncomplete` as its error on the given input, and for a promise made by
`Then` whose source does not complete with `ErrIncomplete` and whose
computation, in case the source succeeds and the computation is therefore
invoked, does not return `ErrIncomplete` on the source's value, `GetNow`
returns an error equal to `ErrIncomplete` only while the promise is pending.
Nothing is asked of the computation of `Then` when the source fails. -/
theorem GetNow_ErrIncomplete_only_pending (T V : Type) [Inhabited T] [Inhabited V] :
    (∀ (ctx : Context) (t : T) (f : Func T V) (σ : List RunLabel) (s : RunState T V),
      (f ctx t).2 ≠ ErrIncomplete →
      exec (Run.step ctx t f) (Run ctx t f) σ = some s →
      s.p.GetNow.2 = ErrIncomplete → s.p.done = false) ∧
    (∀ (ctx : Context) (sv : T) (se : error) (f : Func T V) (σ : List ThenLabel)
      (s : ThenState T V),
      se ≠ ErrIncomplete → (se = none → (f ctx sv).2 ≠ ErrIncomplete) →
      exec (Then.step ctx sv se f) (Then ctx f) σ = some s →
      s.out.GetNow.2 = ErrIncomplete → s.out.done = false) := by
  constructor
  · intro ctx t f σ s hf h hg
    have hI := Run_inv_exec ctx t f σ s h
    obtain ⟨p, pc, calls⟩ := s
    cases pc <;> simp_all [Run.Inv, Promise.GetNow]
  · intro ctx sv se f σ s hs hf h hg
    obtain ⟨-, hO⟩ := Then_inv_exec ctx sv se f σ s h
    obtain ⟨src, srcPc, out, pc, calls⟩ := s
    cases hd : out.done with
    | false => rfl
    | true =>
      exfalso
      have hg2 : out.err = ErrIncomplete := by
        simpa [Promise.GetNow, hd] using hg
      have hfresh : out ≠ Promise.fresh := fun hc => by
        rw [hc] at hd
        simp [Promise.fresh] at hd
      have hopen : out.done ≠ false := fun hc => by
        rw [hc] at hd
        simp at hd
      cases pc with
      | get => exact hfresh hO.1
      | test val err => exact hfresh hO.2.2.1
      | propagate err => exact hfresh hO.2.2.1
      | call val => exact hfresh hO.2.2.1
      | storeVal val2 err => exact hfresh hO.2.2.1
      | storeErr err => exact hopen hO.2.2.2.2.1
      | closing => exact hopen hO.1
      | exited =>
        have h3 : out.err = (Then.result ctx sv se f).2 := congrArg Prod.snd hO.2.1
        cases se with
        | some e =>
          simp only [Then.result] at h3
          exact hs (h3.symm.trans hg2)
        | none =>
          simp only [Then.result] at h3
          exact hf rfl (h3.symm.trans hg2)

/-- C5, amended, on two promises that are pending.  The promise of
`Run(ctx, 10, doubler)` whose goroutine has stored `(20, nil)` without closing
the channel answers `ErrIncomplete` and is pending.  The promise of `Then` on a
source that completed with `(0, ErrFail)`, chained with a computation that
would return `ErrIncomplete` but is never invoked, answers `ErrIncomplete`
while its goroutine has only read the source, and is pending. -/
theorem GetNow_ErrIncomplete_only_pending_witness :
    exec (Run.step background 10 doubler) (Run background 10 doubler) [RunLabel.go] =
      some { p := { val := 20, err := none, done := false }, pc := RunPc.closing,
             calls := [(background, 10)] } ∧
    (Promise.GetNow { val := 20, err := none, done := false } : Nat × error).2 =
      ErrIncomplete ∧
    ({ val := 20, err := none, done := false } : Promise Nat).done = false ∧
    exec (Then.step background 0 ErrFail returnsIncomplete) (Then background returnsIncomplete)
        [ThenLabel.source, ThenLabel.source, ThenLabel.chain] =
      some { src := { val := 0, err := ErrFail, done := true }, srcPc := RunPc.exited,
             out := { val := 0, err := none, done := false },
             pc := ThenPc.test 0 ErrFail, calls := [] } ∧
    ({ val := 0, err := none, done := false } : Promise Nat).done = false :=
  ⟨rfl, rfl,
    (GetNow_ErrIncomplete_only_pending Nat Nat).1 background 10 doubler [RunLabel.go]
      { p := { val := 20, err := none, done := false }, pc := RunPc.closing,
        calls := [(background, 10)] } (by decide) rfl rfl,
    rfl,
    (GetNow_ErrIncomplete_only_pending Nat Nat).2 background 0 ErrFail returnsIncomplete
      [ThenLabel.source, ThenLabel.source, ThenLabel.chain]
      { src := { val := 0, err := ErrFail, done := true }, srcPc := RunPc.exited,
        out := { val := 0, err := none, done := false },
        pc := ThenPc.test 0 ErrFail, calls := [] }
      (by decide) (fun h => absurd h (by decide)) rfl rfl⟩

/-! ## WithCancellation: lemmas -/

/-- A property kept by every step whose label satisfies `Q` holds at the end of
every schedule made of such labels. -/
theorem exec_invariant_on {S L : Type} (step : S → L → Option S) (P : S → Prop)
    (Q : L → Prop) (hstep : ∀ s l s1, Q l → P s → step s l = some s1 → P s1) :
    ∀ (σ : List L) (s s2 : S), (∀ l ∈ σ, Q l) → P s → exec step s σ = some s2 → P s2 := by
  intro σ
  induction σ with
  | nil =>
    intro s s2 _ hP h
    simp only [exec, Option.some.injEq] at h
    exact h ▸ hP
  | cons l ls ih =>
    intro s s2 hQ hP h
    obtain ⟨s1, h1, h2⟩ := (exec_cons step s s2 l ls).1 h
    exact ih s1 s2 (fun x hx => hQ x (List.mem_cons_of_mem l hx))
      (hstep s l s1 (hQ l (List.mem_cons_self l ls)) hP h1) h2

theorem Wc_inv_init {T V : Type} [Inhabited V] (f : Func T V) (ctx : Context) (t : T) :
    WithCancellation.Inv f ctx t (WithCancellation f ctx t) := by
  simp [WithCancellation.Inv, WithCancellation]

theorem Wc_inv_step {T V : Type} [Inhabited V] (f : Func T V) (ctx : Context) (t : T)
    (s : WcState T V) (l : WcLabel) (s1 : WcState T V)
    (hI : WithCancellation.Inv f ctx t s) (h : WithCancellation.step f ctx t s l = some s1) :
    WithCancellation.Inv f ctx t s1 := by
  obtain ⟨fired, val, err, done, pc, main, calls⟩ := s
  obtain ⟨hP, hM⟩ := hI
  cases l with
  | cancel =>
    simp only [WithCancellation.step] at h
    split at h
    · simp at h
    · simp only [Option.some.injEq] at h
      subst h
      refine ⟨hP, ?_⟩
      cases main <;> simp_all
  | inner =>
    cases pc <;> simp [WithCancellation.step] at h <;> subst h <;>
      cases main <;> simp_all [WithCancellation.Inv]
  | selectCtx =>
    cases main <;> simp [WithCancellation.step] at h
    obtain ⟨hf, h⟩ := h
    subst h
    exact ⟨hP, Or.inr ⟨hf, by simp [Context.Err, hf]⟩⟩
  | selectDone =>
    cases main <;> simp [WithCancellation.step] at h
    obtain ⟨hd, h⟩ := h
    subst h
    exact ⟨hP, hd⟩
  | finish =>
    cases main <;> simp [WithCancellation.step] at h
    subst h
    refine ⟨hP, Or.inl ?_⟩
    cases pc <;> simp_all

theorem Wc_inv_exec {T V : Type} [Inhabited V] (f : Func T V) (ctx : Context) (t : T)
    (σ : List WcLabel) (s : WcState T V)
    (h : exec (WithCancellation.step f ctx t) (WithCancellation f ctx t) σ = some s) :
    WithCancellation.Inv f ctx t s :=
  exec_invariant _ _ (Wc_inv_step f ctx t) σ _ s (Wc_inv_init f ctx t) h

theorem Wc_measure_step {T V : Type} [Inhabited V] (f : Func T V) (ctx : Context) (t : T)
    (s : WcState T V) (l : WcLabel) (s1 : WcState T V)
    (h : WithCancellation.step f ctx t s l = some s1) : s1.measure < s.measure := by
  obtain ⟨fired, val, err, done, pc, main, calls⟩ := s
  cases l with
  | cancel =>
    cases fired <;> simp [WithCancellation.step] at h
    subst h
    simp [WcState.measure]
  | inner =>
    cases pc <;> simp [WithCancellation.step] at h <;> subst h <;>
      simp [WcState.measure, RunPc.rank]
  | selectCtx =>
    cases main <;> simp [WithCancellation.step] at h
    obtain ⟨hf, h⟩ := h
    subst h
    simp [WcState.measure, WcMain.rank]
  | selectDone =>
    cases main <;> simp [WithCancellation.step] at h
    obtain ⟨hd, h⟩ := h
    subst h
    simp [WcState.measure, WcMain.rank]
  | finish =>
    cases main <;> simp [WithCancellation.step] at h
    subst h
    simp [WcState.measure, WcMain.rank]

/-- Once the caller has returned, no step changes what it returned. -/
theorem Wc_ret_step {T V : Type} [Inhabited V] (f : Func T V) (ctx : Context) (t : T)
    (s : WcState T V) (l : WcLabel) (s1 : WcState T V) (r : V × error)
    (hr : s.ret = some r) (h : WithCancellation.step f ctx t s l = some s1) :
    s1.ret = some r := by
  obtain ⟨fired, val, err, done, pc, main, calls⟩ := s
  cases main <;> simp [WcState.ret] at hr
  cases l with
  | cancel =>
    cases fired <;> simp [WithCancellation.step] at h
    subst h
    simp [WcState.ret, hr]
  | inner =>
    cases pc <;> simp [WithCancellation.step] at h <;> subst h <;> simp [WcState.ret, hr]
  | selectCtx => simp [WithCancellation.step] at h
  | selectDone => simp [WithCancellation.step] at h
  | finish => simp [WithCancellation.step] at h

theorem Wc_ret_exec {T V : Type} [Inhabited V] (f : Func T V) (ctx : Context) (t : T)
    (τ : List WcLabel) (s s2 : WcState T V) (r : V × error)
    (hr : s.ret = some r) (h : exec (WithCancellation.step f ctx t) s τ = some s2) :
    s2.ret = some r :=
  exec_invariant (WithCancellation.step f ctx t) (fun x => x.ret = some r)
    (fun a l b hP hab => Wc_ret_step f ctx t a l b r hP hab) τ s s2 hr h

theorem Wc_unfired_exec {T V : Type} [Inhabited V] (f : Func T V) (ctx : Context) (t : T)
    (σ : List WcLabel) (s : WcState T V) (hσ : WcLabel.cancel ∉ σ)
    (h : exec (WithCancellation.step f ctx t) (WithCancellation f ctx t) σ = some s) :
    s.fired = false := by
  refine exec_invariant_on (WithCancellation.step f ctx t) (fun x => x.fired = false)
    (fun l => l ≠ WcLabel.cancel) ?_ σ _ s (fun l hl hc => hσ (hc ▸ hl)) rfl h
  intro a l b hl hP hab
  obtain ⟨fired, val, err, done, pc, main, calls⟩ := a
  cases l with
  | cancel => exact absurd rfl hl
  | inner => cases pc <;> simp [WithCancellation.step] at hab <;> subst hab <;> exact hP
  | selectCtx =>
    cases main <;> simp [WithCancellation.step] at hab
    obtain ⟨-, hab⟩ := hab
    subst hab
    exact hP
  | selectDone =>
    cases main <;> simp [WithCancellation.step] at hab
    obtain ⟨-, hab⟩ := hab
    subst hab
    exact hP
  | finish =>
    cases main <;> simp [WithCancellation.step] at hab
    subst hab
    exact hP

/-- After the `select` has taken the case `<-done`, the caller returns the pair
of `f` and nothing else. -/
theorem Wc_afterDone_exec {T V : Type} [Inhabited V] (f : Func T V) (ctx : Context) (t : T)
    (τ : List WcLabel) (s s2 : WcState T V) (hI : WithCancellation.Inv f ctx t s)
    (hm : s.main = WcMain.afterDone)
    (h : exec (WithCancellation.step f ctx t) s τ = some s2) :
    s2.main = WcMain.afterDone ∨ s2.ret = some (f ctx t) := by
  have key := exec_invariant (WithCancellation.step f ctx t)
    (fun x => WithCancellation.Inv f ctx t x ∧
      (x.main = WcMain.afterDone ∨ x.ret = some (f ctx t)))
    (fun a l b hP hab => by
      refine ⟨Wc_inv_step f ctx t a l b hP.1 hab, ?_⟩
      rcases hP.2 with h1 | h1
      · obtain ⟨fired, val, err, done, pc, main, calls⟩ := a
        obtain ⟨⟨hp, hq⟩, -⟩ := hP
        simp only at h1
        subst h1
        cases l with
        | cancel =>
          cases fired <;> simp [WithCancellation.step] at hab
          subst hab
          exact Or.inl rfl
        | inner =>
          cases pc <;> simp [WithCancellation.step] at hab <;> subst hab <;> exact Or.inl rfl
        | selectCtx => simp [WithCancellation.step] at hab
        | selectDone => simp [WithCancellation.step] at hab
        | finish =>
          simp [WithCancellation.step] at hab
          subst hab
          right
          cases pc <;> simp_all [WcState.ret]
      · exact Or.inr (Wc_ret_step f ctx t a l b _ h1 hab))
    τ s s2 ⟨hI, Or.inl hm⟩ h
  exact key.2

/-! ## WithCancellation: the claims -/

/-- C8 as stated fails.  The context's done-signal fires first, before the inner
goroutine has run `f`; the inner goroutine then runs `doubler` and closes
`done` before the caller is scheduled; the `select` finds both channels ready
and takes the case `<-done`; the wrapper returns `(2, nil)`, the pair of
`doubler`, not the zero value with `ctx.Err()`. -/
theorem WithCancellation_fired_first_returns_f :
    firesBeforeFinish [WcLabel.cancel, WcLabel.inner, WcLabel.inner, WcLabel.selectDone,
        WcLabel.finish] = true ∧
    exec (WithCancellation.step doubler withTimeout 1) (WithCancellation doubler withTimeout 1)
        [WcLabel.cancel, WcLabel.inner, WcLabel.inner, WcLabel.selectDone, WcLabel.finish] =
      some { fired := true, val := 2, err := none, done := true, pc := RunPc.exited,
             main := WcMain.returned 2 none, calls := [(withTimeout, 1)] } ∧
    @WcState.ret Nat Nat
           { fired := true, val := 2, err := none, done := true, pc := RunPc.exited,
             main := WcMain.returned 2 none, calls := [(withTimeout, 1)] } =
      some (2, none) ∧
    ((2, none) : Nat × error) ≠ (default, withTimeout.Err true) :=
  ⟨rfl, rfl, rfl, by decide⟩

/-- C8, amended: in a state `s` of the wrapper in which the context's
done-signal has fired, the inner goroutine has not closed `done`, and the
caller stands at the `select`, the `select` cannot take the case `<-done`; it
takes the case `<-ctx.Done()`, the wrapper returns the zero value together with
`ctx.Err()`, and no later step, whatever `f` returns, changes what it
returned. -/
theorem WithCancellation_ctx_case {T V : Type} [Inhabited V] (f : Func T V) (ctx : Context)
    (t : T) (σ : List WcLabel) (s : WcState T V)
    (_h : exec (WithCancellation.step f ctx t) (WithCancellation f ctx t) σ = some s)
    (hf : s.fired = true) (hd : s.done = false) (hm : s.main = WcMain.selecting) :
    WithCancellation.step f ctx t s WcLabel.selectDone = none ∧
    WithCancellation.step f ctx t s WcLabel.finish = none ∧
    ∃ s1, WithCancellation.step f ctx t s WcLabel.selectCtx = some s1 ∧
      s1.ret = some (default, ctx.Err s.fired) ∧ ctx.Err s.fired = some ctx.cause ∧
      ∀ τ s2, exec (WithCancellation.step f ctx t) s1 τ = some s2 →
        s2.ret = some (default, ctx.Err s.fired) := by
  obtain ⟨fired, val, err, done, pc, main, calls⟩ := s
  simp only at hf hd hm
  subst hf hd hm
  refine ⟨by simp [WithCancellation.step], by simp [WithCancellation.step], _, rfl, rfl,
    by simp [Context.Err], ?_⟩
  intro τ s2 h2
  exact Wc_ret_exec f ctx t τ _ s2 _ (by simp [WcState.ret]) h2

/-- C8, amended, on the second case of `TestWithCancellation`: the deadline
fires while `f` has not finished, the `select` takes the context's case, and
the wrapper returns `(0, DeadlineExceeded)`; that the inner goroutine finishes
afterwards changes nothing. -/
theorem WithCancellation_ctx_case_witness :
    exec (WithCancellation.step doubler withTimeout 1) (WithCancellation doubler withTimeout 1)
        [WcLabel.cancel] =
      some { fired := true, val := 0, err := none, done := false, pc := RunPc.call,
             main := WcMain.selecting, calls := [] } ∧
    WithCancellation.step doubler withTimeout 1
        { fired := true, val := 0, err := none, done := false, pc := RunPc.call,
          main := WcMain.selecting, calls := [] } WcLabel.selectDone = none :=
  ⟨rfl,
    (WithCancellation_ctx_case doubler withTimeout 1 [WcLabel.cancel]
      { fired := true, val := 0, err := none, done := false, pc := RunPc.call,
        main := WcMain.selecting, calls := [] } rfl rfl rfl rfl).1⟩

/-- C9 as stated fails.  The inner goroutine runs `doubler` to its end and closes
`done` while the context's done-signal has not fired; the signal fires
afterwards, before the caller is scheduled; the `select` finds both channels
ready and takes the case `<-ctx.Done()`; the wrapper returns
`(0, DeadlineExceeded)`, not the pair `(2, nil)` of `doubler`. -/
theorem WithCancellation_finished_first_returns_ctx_error :
    finishesBeforeFire [WcLabel.inner, WcLabel.inner, WcLabel.cancel, WcLabel.selectCtx] =
      true ∧
    exec (WithCancellation.step doubler withTimeout 1) (WithCancellation doubler withTimeout 1)
        [WcLabel.inner, WcLabel.inner, WcLabel.cancel, WcLabel.selectCtx] =
      some { fired := true, val := 2, err := none, done := true, pc := RunPc.exited,
             main := WcMain.returned 0 (some ErrVal.DeadlineExceeded),
             calls := [(withTimeout, 1)] } ∧
    @WcState.ret Nat Nat
           { fired := true, val := 2, err := none, done := true, pc := RunPc.exited,
             main := WcMain.returned 0 (some ErrVal.DeadlineExceeded),
             calls := [(withTimeout, 1)] } =
      some (0, some ErrVal.DeadlineExceeded) ∧
    ((0, some ErrVal.DeadlineExceeded) : Nat × error) ≠ doubler withTimeout 1 :=
  ⟨rfl, rfl, rfl, by decide⟩

/-- Whatever the context does, a wrapper in which neither the inner goroutine
nor the caller can move has returned. -/
theorem Wc_stuck_returned {T V : Type} [Inhabited V] (f : Func T V) (ctx : Context) (t : T)
    (s : WcState T V) (hI : WithCancellation.Inv f ctx t s)
    (hl : ∀ l, l ≠ WcLabel.cancel → WithCancellation.step f ctx t s l = none) :
    ∃ r, s.ret = some r := by
  obtain ⟨fired, val, err, done, pc, main, calls⟩ := s
  obtain ⟨hP, -⟩ := hI
  have h1 := hl WcLabel.inner (by decide)
  have h2 := hl WcLabel.selectDone (by decide)
  have h3 := hl WcLabel.finish (by decide)
  cases pc <;> simp [WithCancellation.step] at h1
  simp only at hP
  cases main with
  | selecting => simp [WithCancellation.step, hP.1] at h2
  | afterDone => simp [WithCancellation.step] at h3
  | returned v e => exact ⟨(v, e), rfl⟩

/-- C9, amended: if the context's done-signal has not fired in the state `s` in
which the `select` of the wrapper takes its case, then that case is `<-done`
and the call returns exactly the pair of `f(ctx, t)`, whether or not the
context fires later.  In every continuation `τ` after that `select`: whatever
the wrapper has returned is that pair; as long as it has not returned it, the
caller's `return val, err` is enabled, so that the caller is never blocked
again and an execution in which nothing can move has returned that pair; and
the whole execution has at most five steps.  In particular, in an execution in
which the context never fires, whatever the wrapper returns is the pair of
`f(ctx, t)`, and when nothing but the firing of the context could still happen
the wrapper has returned that pair.  In every execution at all, when neither
the inner goroutine nor the caller can move, the wrapper has returned; and no
execution has more than five steps. -/
theorem WithCancellation_done_case {T V : Type} [Inhabited V] (f : Func T V) (ctx : Context)
    (t : T) (σ : List WcLabel) (s : WcState T V)
    (h : exec (WithCancellation.step f ctx t) (WithCancellation f ctx t) σ = some s) :
    (s.fired = false → s.main = WcMain.selecting →
      WithCancellation.step f ctx t s WcLabel.selectCtx = none ∧
      ∀ l τ s2, l = WcLabel.selectCtx ∨ l = WcLabel.selectDone →
        exec (WithCancellation.step f ctx t) s (l :: τ) = some s2 →
        (∀ r, s2.ret = some r → r = f ctx t) ∧
        (WithCancellation.step f ctx t s2 WcLabel.finish = none → s2.ret = some (f ctx t)) ∧
        ((∀ l2, WithCancellation.step f ctx t s2 l2 = none) → s2.ret = some (f ctx t)) ∧
        (σ ++ l :: τ).length ≤ 5) ∧
    (WcLabel.cancel ∉ σ →
      (∀ r, s.ret = some r → r = f ctx t) ∧
      ((∀ l, l ≠ WcLabel.cancel → WithCancellation.step f ctx t s l = none) →
        s.ret = some (f ctx t))) ∧
    ((∀ l, l ≠ WcLabel.cancel → WithCancellation.step f ctx t s l = none) →
      ∃ r, s.ret = some r) ∧
    σ.length ≤ 5 := by
  have hI := Wc_inv_exec f ctx t σ s h
  have hbound : ∀ (ρ : List WcLabel) (x : WcState T V),
      exec (WithCancellation.step f ctx t) (WithCancellation f ctx t) ρ = some x →
      ρ.length ≤ 5 := by
    intro ρ x hx
    have hm := exec_measure (WithCancellation.step f ctx t) WcState.measure
      (Wc_measure_step f ctx t) ρ _ x hx
    simp only [WithCancellation, WcState.measure, RunPc.rank, WcMain.rank] at hm
    simp at hm
    omega
  refine ⟨?_, ?_, Wc_stuck_returned f ctx t s hI, hbound σ s h⟩
  · intro hf hm
    have hnone : WithCancellation.step f ctx t s WcLabel.selectCtx = none := by
      obtain ⟨fired, val, err, done, pc, main, calls⟩ := s
      simp only at hf hm
      subst hf hm
      simp [WithCancellation.step]
    refine ⟨hnone, ?_⟩
    intro l τ s2 hl h2
    obtain ⟨s1, h3, h4⟩ := (exec_cons _ s s2 l τ).1 h2
    rcases hl with hl | hl
    · subst hl
      rw [hnone] at h3
      simp at h3
    · subst hl
      have hI1 := Wc_inv_step f ctx t s _ s1 hI h3
      have hm1 : s1.main = WcMain.afterDone := by
        obtain ⟨fired, val, err, done, pc, main, calls⟩ := s
        simp only at hm
        subst hm
        simp [WithCancellation.step] at h3
        obtain ⟨-, h3⟩ := h3
        subst h3
        rfl
      have hcase := Wc_afterDone_exec f ctx t τ s1 s2 hI1 hm1 h4
      have hfin : WithCancellation.step f ctx t s2 WcLabel.finish = none →
          s2.ret = some (f ctx t) := by
        intro hn
        rcases hcase with h5 | h5
        · obtain ⟨fired, val, err, done, pc, main, calls⟩ := s2
          simp only at h5
          subst h5
          simp [WithCancellation.step] at hn
        · exact h5
      refine ⟨?_, hfin, fun hall => hfin (hall WcLabel.finish), ?_⟩
      · intro r hr
        rcases hcase with h5 | h5
        · simp [WcState.ret, h5] at hr
        · rw [h5] at hr
          simp only [Option.some.injEq] at hr
          exact hr.symm
      · exact hbound _ s2 ((exec_append _ _ _ _ _).2 ⟨s, h, h2⟩)
  · intro hσ
    have hf := Wc_unfired_exec f ctx t σ s hσ h
    obtain ⟨fired, val, err, done, pc, main, calls⟩ := s
    obtain ⟨hP, hM⟩ := hI
    simp only at hf
    subst hf
    constructor
    · intro r hr
      cases main <;> simp_all [WcState.ret]
    · intro hl
      have h1 := hl WcLabel.inner (by decide)
      have h2 := hl WcLabel.selectDone (by decide)
      have h3 := hl WcLabel.finish (by decide)
      cases pc <;> simp [WithCancellation.step] at h1
      cases main <;> simp_all [WithCancellation.step, WcState.ret]

/-- C9, amended, on `doubler` under the context of `TestWithCancellation`: the
inner goroutine runs `doubler` and closes `done`, the `select` takes the case
`<-done` while the deadline has not fired, the deadline fires next, and the
caller still executes `return val, err`: the wrapper returns `(2, nil)`. -/
theorem WithCancellation_done_case_witness :
    exec (WithCancellation.step doubler withTimeout 1) (WithCancellation doubler withTimeout 1)
        [WcLabel.inner, WcLabel.inner] =
      some { fired := false, val := 2, err := none, done := true, pc := RunPc.exited,
             main := WcMain.selecting, calls := [(withTimeout, 1)] } ∧
    exec (WithCancellation.step doubler withTimeout 1)
        { fired := false, val := 2, err := none, done := true, pc := RunPc.exited,
          main := WcMain.selecting, calls := [(withTimeout, 1)] }
        [WcLabel.selectDone, WcLabel.cancel, WcLabel.finish] =
      some { fired := true, val := 2, err := none, done := true, pc := RunPc.exited,
             main := WcMain.returned 2 none, calls := [(withTimeout, 1)] } ∧
    @WcState.ret Nat Nat
           { fired := true, val := 2, err := none, done := true, pc := RunPc.exited,
             main := WcMain.returned 2 none, calls := [(withTimeout, 1)] } =
      some (2, none) :=
  ⟨rfl, rfl,
    ((((WithCancellation_done_case doubler withTimeout 1 [WcLabel.inner, WcLabel.inner]
      { fired := false, val := 2, err := none, done := true, pc := RunPc.exited,
        main := WcMain.selecting, calls := [(withTimeout, 1)] } rfl).1 rfl rfl).2
      WcLabel.selectDone [WcLabel.cancel, WcLabel.finish]
      { fired := true, val := 2, err := none, done := true, pc := RunPc.exited,
        main := WcMain.returned 2 none, calls := [(withTimeout, 1)] }
      (Or.inr rfl) rfl).2.1 rfl)⟩

/-! ## Wait: lemmas -/

/-- Replacing one entry of a list shifts the sum of a map by the difference. -/
theorem sum_map_set {α : Type} (g : α → Nat) :
    ∀ (l : List α) (i : Nat) (x y : α), l[i]? = some x →
      ((l.set i y).map g).sum + g x = (l.map g).sum + g y := by
  intro l
  induction l with
  | nil =>
    intro i x y h
    simp at h
  | cons a l ih =>
    intro i x y h
    cases i with
    | zero =>
      simp only [List.getElem?_cons_zero, Option.some.injEq] at h
      subst h
      simp only [List.set_cons_zero, List.map_cons, List.sum_cons]
      omega
    | succ n =>
      simp only [List.getElem?_cons_succ] at h
      have := ih n x y h
      simp only [List.set_cons_succ, List.map_cons, List.sum_cons]
      omega

/-- Replacing one entry by one with the same image leaves a map unchanged. -/
theorem map_set_same {α β : Type} (f : α → β) :
    ∀ (l : List α) (i : Nat) (x y : α), l[i]? = some x → f y = f x →
      (l.set i y).map f = l.map f := by
  intro l
  induction l with
  | nil =>
    intro i x y h
    simp at h
  | cons a l ih =>
    intro i x y h hf
    cases i with
    | zero =>
      simp only [List.getElem?_cons_zero, Option.some.injEq] at h
      subst h
      simp [hf]
    | succ n =>
      simp only [List.getElem?_cons_succ] at h
      simp [ih n x y h hf]

theorem sum_map_zero {α : Type} (g : α → Nat) (l : List α) (h : ∀ x ∈ l, g x = 0) :
    (l.map g).sum = 0 := by
  induction l with
  | nil => rfl
  | cons a l ih =>
    simp only [List.map_cons, List.sum_cons]
    rw [h a (List.mem_cons_self a l), ih (fun x hx => h x (List.mem_cons_of_mem a hx))]

theorem zero_of_sum_map_zero {α : Type} (g : α → Nat) (l : List α)
    (h : (l.map g).sum = 0) : ∀ x ∈ l, g x = 0 := by
  induction l with
  | nil =>
    intro x hx
    simp at hx
  | cons a l ih =>
    simp only [List.map_cons, List.sum_cons] at h
    intro x hx
    rcases List.mem_cons.1 hx with rfl | hx
    · omega
    · exact ih (by omega) x hx

theorem Wait_rank_set (ws : List Watcher) (i : Nat) (x y : Watcher)
    (hx : ws[i]? = some x) (hlt : y.pc.rank < x.pc.rank) :
    ((ws.set i y).map (fun x => x.pc.rank)).sum < (ws.map (fun x => x.pc.rank)).sum := by
  have := sum_map_set (fun x => x.pc.rank) ws i x y hx
  dsimp only at this
  omega

theorem Wait_measure_step (s : WaitState) (l : WaitLabel) (s1 : WaitState)
    (h : Wait.step s l = some s1) : s1.measure < s.measure := by
  obtain ⟨ws, wg, errChan, cap, done, closer, ret⟩ := s
  cases l with
  | watcher i =>
    simp only [Wait.step] at h
    cases hx : ws[i]? with
    | none => simp [hx] at h
    | some x =>
      obtain ⟨w, pc⟩ := x
      simp only [hx] at h
      cases pc with
      | waiting =>
        simp only [Option.some.injEq] at h
        subst h
        have := Wait_rank_set ws i _ ⟨w, WatcherPc.check w⟩ hx (by simp [WatcherPc.rank])
        simp only [WaitState.measure]
        omega
      | check e =>
        cases e with
        | none =>
          simp only [Option.some.injEq] at h
          subst h
          have := Wait_rank_set ws i _ ⟨w, WatcherPc.deferred⟩ hx (by simp [WatcherPc.rank])
          simp only [WaitState.measure]
          omega
        | some e =>
          simp only at h
          split at h
          · simp only [Option.some.injEq] at h
            subst h
            have := Wait_rank_set ws i _ ⟨w, WatcherPc.deferred⟩ hx
              (by simp [WatcherPc.rank])
            simp only [WaitState.measure]
            omega
          · simp at h
      | deferred =>
        simp only [Option.some.injEq] at h
        subst h
        have := Wait_rank_set ws i _ ⟨w, WatcherPc.exited⟩ hx (by simp [WatcherPc.rank])
        simp only [WaitState.measure]
        omega
      | exited => simp at h
  | closer =>
    cases closer <;> simp [Wait.step] at h
    · obtain ⟨-, h⟩ := h
      subst h
      simp [WaitState.measure, RunPc.rank]
    · subst h
      simp [WaitState.measure, RunPc.rank]
  | selectErr =>
    cases ret <;> cases errChan <;> simp [Wait.step] at h
    subst h
    simp [WaitState.measure]
  | selectDone =>
    cases ret <;> simp [Wait.step] at h
    obtain ⟨-, h⟩ := h
    subst h
    simp [WaitState.measure]

theorem Wait_init_live (errs : List error) :
    ((errs.map (fun e => ({ w := e, pc := WatcherPc.waiting } : Watcher))).map
      Watcher.live).sum = errs.length := by
  induction errs with
  | nil => rfl
  | cons e es ih =>
    simp only [List.map_cons, List.sum_cons, List.length_cons, ih]
    simp [Watcher.live]
    omega

theorem Wait_init_rank (errs : List error) :
    ((errs.map (fun e => ({ w := e, pc := WatcherPc.waiting } : Watcher))).map
      (fun x => x.pc.rank)).sum = 3 * errs.length := by
  induction errs with
  | nil => rfl
  | cons e es ih =>
    simp only [List.map_cons, List.sum_cons, List.length_cons, ih]
    simp [WatcherPc.rank]
    omega

theorem Wait_nil_inv_init (errs : List error) (hnil : ∀ e ∈ errs, e = none) :
    Wait.NilInv errs (Wait errs) := by
  refine ⟨?_, ?_, rfl, ?_, ?_, ?_, ?_⟩
  · simp [Wait, List.map_map, Function.comp_def]
  · intro x hx
    simp only [Wait, List.mem_map] at hx
    obtain ⟨e, he, rfl⟩ := hx
    exact ⟨hnil e he, fun e2 h => by simp at h⟩
  · simp only [Wait]
    rw [Wait_init_live]
  · intro h
    simp [Wait] at h
  · simp [Wait]
  · intro r h
    simp [Wait] at h

/-- A watcher's move that keeps its waiter and stays quiet keeps the part of the
invariant that speaks of the watchers. -/
theorem Wait_nil_inv_set (errs : List error) (ws : List Watcher) (i : Nat) (x y : Watcher)
    (hx : ws[i]? = some x) (hw : y.w = x.w) (hq : ∀ e, y.pc ≠ WatcherPc.check (some e))
    (h1 : ws.map Watcher.w = errs) (h2 : ∀ z ∈ ws, z.quiet) :
    (ws.set i y).map Watcher.w = errs ∧ (∀ z ∈ ws.set i y, z.quiet) ∧
    ((ws.set i y).map Watcher.live).sum + x.live = (ws.map Watcher.live).sum + y.live := by
  refine ⟨?_, ?_, sum_map_set Watcher.live ws i x y hx⟩
  · rw [map_set_same Watcher.w ws i x y hx hw, h1]
  · intro z hz
    rcases List.mem_or_eq_of_mem_set hz with hz | rfl
    · exact h2 z hz
    · exact ⟨hw.trans (h2 x (List.mem_iff_getElem?.2 ⟨i, hx⟩)).1, hq⟩

theorem Wait_nil_inv_step (errs : List error) (s : WaitState) (l : WaitLabel)
    (s1 : WaitState) (hI : Wait.NilInv errs s) (h : Wait.step s l = some s1) :
    Wait.NilInv errs s1 := by
  obtain ⟨ws, wg, errChan, cap, done, closer, ret⟩ := s
  obtain ⟨h1, h2, h3, h4, h5, h6, h7⟩ := hI
  simp only at h1 h2 h3 h4 h5 h6 h7
  cases l with
  | watcher i =>
    simp only [Wait.step] at h
    cases hx : ws[i]? with
    | none => simp [hx] at h
    | some x =>
      have hxq := h2 x (List.mem_iff_getElem?.2 ⟨i, hx⟩)
      obtain ⟨w, pc⟩ := x
      simp only [hx] at h
      cases pc with
      | waiting =>
        simp only [Option.some.injEq] at h
        subst h
        obtain ⟨k1, k2, k3⟩ := Wait_nil_inv_set errs ws i _ ⟨w, WatcherPc.check w⟩ hx rfl
          (fun e he => by
            have := hxq.1
            simp only at this
            simp [this] at he) h1 h2
        refine ⟨k1, k2, h3, ?_, h5, h6, h7⟩
        have e1 : Watcher.live ⟨w, WatcherPc.waiting⟩ = 1 := rfl
        have e2 : Watcher.live ⟨w, WatcherPc.check w⟩ = 1 := rfl
        simp only
        omega
      | check e =>
        cases e with
        | none =>
          simp only [Option.some.injEq] at h
          subst h
          obtain ⟨k1, k2, k3⟩ := Wait_nil_inv_set errs ws i _ ⟨w, WatcherPc.deferred⟩ hx rfl
            (fun e he => by simp at he) h1 h2
          refine ⟨k1, k2, h3, ?_, h5, h6, h7⟩
          have e1 : Watcher.live ⟨w, WatcherPc.check none⟩ = 1 := rfl
          have e2 : Watcher.live ⟨w, WatcherPc.deferred⟩ = 1 := rfl
          simp only
          omega
        | some e => exact absurd rfl (hxq.2 e)
      | deferred =>
        simp only [Option.some.injEq] at h
        subst h
        obtain ⟨k1, k2, k3⟩ := Wait_nil_inv_set errs ws i _ ⟨w, WatcherPc.exited⟩ hx rfl
          (fun e he => by simp at he) h1 h2
        have e1 : Watcher.live ⟨w, WatcherPc.deferred⟩ = 1 := rfl
        have e2 : Watcher.live ⟨w, WatcherPc.exited⟩ = 0 := rfl
        have hc : closer = RunPc.call := by
          by_contra hne
          have := h5 hne
          omega
        refine ⟨k1, k2, h3, ?_, ?_, h6, h7⟩
        · simp only
          omega
        · intro hne
          exact absurd hc hne
      | exited => simp at h
  | closer =>
    cases closer <;> simp [Wait.step] at h
    · obtain ⟨hz, h⟩ := h
      subst h
      refine ⟨h1, h2, h3, h4, fun _ => hz, ?_, h7⟩
      simp only at h6 ⊢
      constructor
      · intro hd
        have := h6.1 hd
        simp at this
      · intro hd
        simp at hd
    · subst h
      refine ⟨h1, h2, h3, h4, fun _ => h5 (by simp), by simp, ?_⟩
      intro r hr
      exact ⟨(h7 r hr).1, rfl⟩
  | selectErr =>
    subst h3
    cases ret <;> simp [Wait.step] at h
  | selectDone =>
    cases ret <;> simp [Wait.step] at h
    obtain ⟨hd, h⟩ := h
    subst h
    refine ⟨h1, h2, h3, h4, h5, h6, ?_⟩
    intro r hr
    simp only [Option.some.injEq] at hr
    exact ⟨hr.symm, hd⟩

theorem Wait_nil_inv_exec (errs : List error) (hnil : ∀ e ∈ errs, e = none)
    (σ : List WaitLabel) (s : WaitState) (h : exec Wait.step (Wait errs) σ = some s) :
    Wait.NilInv errs s :=
  exec_invariant _ _ (Wait_nil_inv_step errs) σ _ s (Wait_nil_inv_init errs hnil) h

/-- Under the invariant, once the closer is past `wg.Wait()` every watcher has
finished. -/
theorem Wait_nil_all_exited (errs : List error) (s : WaitState) (hI : Wait.NilInv errs s)
    (hz : s.wg = 0) : ∀ x ∈ s.ws, x.pc = WatcherPc.exited := by
  obtain ⟨-, -, -, h4, -, -, -⟩ := hI
  have h0 : (s.ws.map Watcher.live).sum = 0 := by omega
  intro x hx
  have := zero_of_sum_map_zero Watcher.live s.ws h0 x hx
  by_contra hne
  simp [Watcher.live, hne] at this

/-- A `Wait` system over waiters that all return nil in which nothing can move
has returned nil. -/
theorem Wait_nil_stuck (errs : List error) (s : WaitState) (hI : Wait.NilInv errs s)
    (hl : ∀ l, Wait.step s l = none) : s.ret = some none := by
  obtain ⟨ws, wg, errChan, cap, done, closer, ret⟩ := s
  obtain ⟨h1, h2, h3, h4, h5, h6, h7⟩ := hI
  simp only at h1 h2 h3 h4 h5 h6 h7
  have hex : ∀ x ∈ ws, x.pc = WatcherPc.exited := by
    intro x hx
    obtain ⟨i, hi⟩ := List.mem_iff_getElem?.1 hx
    have hq := (h2 x hx).2
    have := hl (WaitLabel.watcher i)
    obtain ⟨w, pc⟩ := x
    simp only [Wait.step, hi] at this
    cases pc with
    | waiting => simp at this
    | check e =>
      cases e with
      | none => simp at this
      | some e => exact absurd rfl (hq e)
    | deferred => simp at this
    | exited => rfl
  have hz : wg = 0 := by
    have := sum_map_zero Watcher.live ws (fun x hx => by simp [Watcher.live, hex x hx])
    omega
  have hc : closer = RunPc.exited := by
    have := hl WaitLabel.closer
    cases closer <;> simp [Wait.step, hz] at this
    rfl
  have hd : done = true := h6.2 hc
  have := hl WaitLabel.selectDone
  cases ret with
  | none => simp [Wait.step, hd] at this
  | some r => rw [(h7 r rfl).1]

/-! ## Wait: the claims -/

/-- C6: on the single waiter whose `Wait()` returns `ErrFail`, the watcher
receives the error, sends it to `errChan` and executes `wg.Done()`; the closer
gets past `wg.Wait()` and closes `done`; the `select` of the caller then finds
both cases ready and takes `<-done`: `Wait` returns nil while `ErrFail` sits in
`errChan`. -/
theorem Wait_returns_nil_with_error_queued :
    exec Wait.step (Wait [ErrFail])
        [WaitLabel.watcher 0, WaitLabel.watcher 0, WaitLabel.watcher 0, WaitLabel.closer,
         WaitLabel.closer, WaitLabel.selectDone] =
      some { ws := [{ w := ErrFail, pc := WatcherPc.exited }], wg := 0,
             errChan := [ErrFail], cap := 1, done := true, closer := RunPc.exited,
             ret := some none } :=
  rfl

/-- C7: when every waiter's `Wait()` returns nil, the package-level `Wait`
returns nil, and not before every waiter's `Wait()` has returned.  In every
execution, if `Wait` has returned then it has returned nil, the watchers are
those of the given waiters and each has seen its waiter return; an execution in
which nothing can move any more has `Wait` returned with nil; and no execution
has more than `3 * n + 3` steps for `n` waiters.  The list may be empty. -/
theorem Wait_all_nil (errs : List error) (hnil : ∀ e ∈ errs, e = none)
    (σ : List WaitLabel) (s : WaitState) (h : exec Wait.step (Wait errs) σ = some s) :
    (∀ r, s.ret = some r →
      r = none ∧ s.ws.map Watcher.w = errs ∧ ∀ x ∈ s.ws, x.waited = true) ∧
    ((∀ l, Wait.step s l = none) → s.ret = some none) ∧
    σ.length ≤ 3 * errs.length + 3 := by
  have hI := Wait_nil_inv_exec errs hnil σ s h
  refine ⟨?_, Wait_nil_stuck errs s hI, ?_⟩
  · intro r hr
    have h7 := hI.2.2.2.2.2.2 r hr
    have hc : s.closer = RunPc.exited := hI.2.2.2.2.2.1.1 h7.2
    have hz : s.wg = 0 := hI.2.2.2.2.1 (by simp [hc])
    refine ⟨h7.1, hI.1, ?_⟩
    intro x hx
    have := Wait_nil_all_exited errs s hI hz x hx
    simp [Watcher.waited, this]
  · have hm := exec_measure Wait.step WaitState.measure Wait_measure_step σ _ s h
    simp only [WaitState.measure] at hm
    have h0 : (Wait errs).ws = errs.map (fun e => { w := e, pc := WatcherPc.waiting }) := rfl
    have h1 : (Wait errs).closer = RunPc.call := rfl
    have h2 : (Wait errs).ret = none := rfl
    rw [h0, Wait_init_rank, h1, h2] at hm
    simp [RunPc.rank] at hm
    omega

/-- C7 on the first case of `TestWait` and on `Wait()` with zero arguments.  With
two waiters that return nil, both watchers finish, the closer gets past
`wg.Wait()` and closes `done`, and `Wait` returns nil.  With no waiter the
closer gets past `wg.Wait()` at once, and `Wait` returns nil. -/
theorem Wait_all_nil_witness :
    exec Wait.step (Wait [none, none])
        [WaitLabel.watcher 0, WaitLabel.watcher 0, WaitLabel.watcher 0,
         WaitLabel.watcher 1, WaitLabel.watcher 1, WaitLabel.watcher 1,
         WaitLabel.closer, WaitLabel.closer, WaitLabel.selectDone] =
      some { ws := [{ w := none, pc := WatcherPc.exited },
                    { w := none, pc := WatcherPc.exited }],
             wg := 0, errChan := [], cap := 2, done := true,
             closer := RunPc.exited, ret := some none } ∧
    WaitState.ret { ws := [{ w := none, pc := WatcherPc.exited },
                           { w := none, pc := WatcherPc.exited }],
                    wg := 0, errChan := [], cap := 2, done := true,
                    closer := RunPc.exited, ret := some none } = some none ∧
    exec Wait.step (Wait []) [WaitLabel.closer, WaitLabel.closer, WaitLabel.selectDone] =
      some { ws := [], wg := 0, errChan := [], cap := 0, done := true,
             closer := RunPc.exited, ret := some none } ∧
    WaitState.ret { ws := [], wg := 0, errChan := [], cap := 0, done := true,
                    closer := RunPc.exited, ret := some none } = some none :=
  ⟨rfl,
    (Wait_all_nil [none, none] (fun e he => by simpa using he)
      [WaitLabel.watcher 0, WaitLabel.watcher 0, WaitLabel.watcher 0,
       WaitLabel.watcher 1, WaitLabel.watcher 1, WaitLabel.watcher 1,
       WaitLabel.closer, WaitLabel.closer, WaitLabel.selectDone]
      { ws := [{ w := none, pc := WatcherPc.exited }, { w := none, pc := WatcherPc.exited }],
        wg := 0, errChan := [], cap := 2, done := true,
        closer := RunPc.exited, ret := some none } rfl).2.1
      (fun l => by
        cases l with
        | watcher i =>
          match i with
          | 0 => rfl
          | 1 => rfl
          | n + 2 => rfl
        | closer => rfl
        | selectErr => rfl
        | selectDone => rfl),
    rfl,
    (Wait_all_nil [] (fun e he => by simp at he)
      [WaitLabel.closer, WaitLabel.closer, WaitLabel.selectDone]
      { ws := [], wg := 0, errChan := [], cap := 0, done := true,
        closer := RunPc.exited, ret := some none } rfl).2.1
      (fun l => by cases l <;> rfl)⟩

end Gcon
